import Mathlib

/-!
Verification of the `web-server` crate: the route index built by
`Router::read_path` (src/router.rs), the per-connection dispatcher
`handle_connection` / `handle_route` (src/main.rs), and the `ThreadPool`
lifecycle (src/thread_pool.rs).

Strings are embedded as `List Char`; Rust panics are embedded as
`Except.error ()`; the filesystem seen by the walk is embedded as a tree
with explicit error nodes for failing `read_dir` / `DirEntry` results.
-/

instance {ε α : Type} [DecidableEq ε] [DecidableEq α] : DecidableEq (Except ε α) :=
  fun a b =>
    match a, b with
    | .ok x, .ok y => decidable_of_iff (x = y) (by simp)
    | .error x, .error y => decidable_of_iff (x = y) (by simp)
    | .ok _, .error _ => isFalse (by simp)
    | .error _, .ok _ => isFalse (by simp)

namespace WebServer

/-- Boolean prefix test on character lists (Rust `str::starts_with`,
as used inside `trim_start_matches`). -/
def isPrefixOfB : List Char → List Char → Bool
  | [], _ => true
  | _ :: _, [] => false
  | a :: as, b :: bs => if a = b then isPrefixOfB as bs else false

/-- Index of the first occurrence of `pat` in `s` (Rust `str::find`). -/
def firstOcc (pat : List Char) : List Char → Option Nat
  | [] => if isPrefixOfB pat [] then some 0 else none
  | c :: t =>
    if isPrefixOfB pat (c :: t) then some 0
    else (firstOcc pat t).map (fun n => n + 1)

/-- Substring test (Rust `str::contains`). -/
def containsB (pat s : List Char) : Bool :=
  (firstOcc pat s).isSome

/-- Fuel-indexed core of `trim_start_matches`.  Each successful trim of a
nonempty pattern removes at least one character, so fuel equal to the
length of the string always suffices. -/
def trimAux (pat : List Char) : Nat → List Char → List Char
  | 0, s => s
  | fuel + 1, s =>
    if pat ≠ [] ∧ isPrefixOfB pat s = true then
      trimAux pat fuel (s.drop pat.length)
    else s

/-- Rust `str::trim_start_matches`: repeatedly remove the pattern from the
front while it is a prefix. -/
def trimStartMatches (pat s : List Char) : List Char :=
  trimAux pat s.length s

/-- `remove_first_occurrence` from src/router.rs: find the first occurrence
of `pattern`, split there, trim leading copies of the pattern from the rest,
and return `/` if the result is empty. -/
def remove_first_occurrence (input pattern : List Char) : List Char :=
  match firstOcc pattern input with
  | some i =>
    let rest := input.drop i
    let result_str := trimStartMatches pattern rest
    if result_str = [] then ['/'] else result_str
  | none => input

/-- The final path component of `p`: the maximal `/`-free suffix
(Rust `Path::file_name`, for the paths produced by the walk). -/
def fileName (p : List Char) : List Char :=
  (p.reverse.takeWhile (fun c => c != '/')).reverse

/-- Rust `Path::file_stem`: the file name minus its extension.  The stem is
the whole name when there is no `.`, or when the only `.` is the leading
character; otherwise the portion before the final `.`. -/
def fileStem (fname : List Char) : List Char :=
  let r := fname.reverse
  let ext := r.takeWhile (fun c => c != '.')
  match r.drop ext.length with
  | [] => fname
  | _ :: stem_r => if stem_r = [] then fname else stem_r.reverse

/-- Rust `Path::with_extension("")`: replace the final component by its
stem. -/
def with_extension_empty (p : List Char) : List Char :=
  p.take (p.length - (fileName p).length) ++ fileStem (fileName p)

/-- A directory listing as seen by `Router::read_path`.  `badDir` is a
directory on which `read_dir()` fails; `badEntry` is a `DirEntry` result
that is an `Err`.  Names are the working-directory-relative path components,
already decoded to text. -/
inductive FsEntry where
  | file (name : List Char)
  | dir (name : List Char) (entries : List FsEntry)
  | badDir (name : List Char)
  | badEntry

/-- The single map insertion `Router::read_path` performs for a regular file
with relative path `d ++ "/" ++ name` inside the directory whose relative
path is `d` (src/router.rs lines 71–93). -/
def filePair (d name : List Char) : List Char × List Char :=
  let p := d ++ '/' :: name
  if containsB ("index.html".toList) p then
    (remove_first_occurrence d ("pages".toList), p)
  else
    let page := if containsB ("html".toList) p then with_extension_empty p else p
    (remove_first_occurrence page ("pages".toList), p)

/-- `Router::read_path`: walk the listing of the directory whose
working-directory-relative path is `d`, producing the route insertions in
order.  A failing `read_dir` or entry (`expect`) panics, embedded as
`Except.error ()`. -/
def read_path (d : List Char) : List FsEntry → Except Unit (List (List Char × List Char))
  | [] => .ok []
  | .file name :: rest => do
    let m ← read_path d rest
    .ok (filePair d name :: m)
  | .dir name sub :: rest => do
    let msub ← read_path (d ++ '/' :: name) sub
    let m ← read_path d rest
    .ok (msub ++ m)
  | .badDir _ :: _ => .error ()
  | .badEntry :: _ => .error ()

/-- Does the tree contain a failing `read_dir` or a failing entry? -/
def hasErr : List FsEntry → Bool
  | [] => false
  | .file _ :: rest => hasErr rest
  | .dir _ sub :: rest => hasErr sub || hasErr rest
  | .badDir _ :: _ => true
  | .badEntry :: _ => true

/-- Relative paths of all regular files reachable in the tree, in walk
order. -/
def filePaths (d : List Char) : List FsEntry → List (List Char)
  | [] => []
  | .file name :: rest => (d ++ '/' :: name) :: filePaths d rest
  | .dir name sub :: rest => filePaths (d ++ '/' :: name) sub ++ filePaths d rest
  | .badDir _ :: rest => filePaths d rest
  | .badEntry :: rest => filePaths d rest

/-- Well-formed listing: every file and directory name is nonempty (as is
true of real directory entries). -/
def wfEntries : List FsEntry → Bool
  | [] => true
  | .file name :: rest => !name.isEmpty && wfEntries rest
  | .dir name sub :: rest => !name.isEmpty && wfEntries sub && wfEntries rest
  | .badDir _ :: rest => wfEntries rest
  | .badEntry :: rest => wfEntries rest

/-- Fuel-indexed core of `split_whitespace`; consuming a word or a
whitespace character always shortens the string, so fuel equal to the
length of the string suffices. -/
def splitWSAux : Nat → List Char → List (List Char)
  | 0, _ => []
  | _ + 1, [] => []
  | fuel + 1, c :: t =>
    if c.isWhitespace then splitWSAux fuel t
    else (c :: t.takeWhile (fun x => !x.isWhitespace)) ::
      splitWSAux fuel (t.dropWhile (fun x => !x.isWhitespace))

/-- Rust `str::split_whitespace` (restricted to ASCII whitespace): the
maximal nonempty runs of non-whitespace characters. -/
def splitWS (s : List Char) : List (List Char) :=
  splitWSAux s.length s

/-- Lookup in the route map, later insertions shadowing earlier ones
(`HashMap::get` after the sequence of `insert`s). -/
def lookupLast (m : List (List Char × List Char)) (k : List Char) : Option (List Char) :=
  match m with
  | [] => none
  | (k', v) :: rest =>
    match lookupLast rest k with
    | some v' => some v'
    | none => if k = k' then some v else none

/-- `handle_route` from src/main.rs: the 200 response for file contents that
were read successfully. -/
def handle_route (contents : List Char) : List Char :=
  ("HTTP/1.1 200 OK".toList) ++ ("\r\nContent-Length: ".toList) ++
    (Nat.repr contents.length).toList ++ ("\r\n\r\n".toList) ++ contents

/-- `handle_connection` from src/main.rs.  `routes` is the finished route
index, `fread` embeds `std::fs::read_to_string` (`none` = error), and
`firstLine` is the first line of the request (`none` = no line could be
read).  Every `unwrap` that can fail is a panic, embedded as
`Except.error ()`. -/
def handle_connection (routes : List (List Char × List Char))
    (fread : List Char → Option (List Char)) (firstLine : Option (List Char)) :
    Except Unit (List Char) :=
  match firstLine with
  | none => .error ()
  | some request_line =>
    match splitWS request_line with
    | [] => .error ()
    | [_] => .error ()
    | _method :: path :: _ =>
      match lookupLast routes path with
      | some route_data =>
        match fread route_data with
        | none => .error ()
        | some contents => .ok (handle_route contents)
      | none => .ok ("HTTP/1.1 404 NOT FOUND\r\n\r\n".toList)

/-- `ThreadPool::new` (src/thread_pool.rs): `assert!(size > 0)` panics on
zero, otherwise workers with ids `0..size` are spawned. -/
def threadPoolNew (size : Nat) : Except Unit (List Nat) :=
  if size > 0 then .ok (List.range size) else .error ()

/-- State of the pool system: the mpsc channel queue, whether the `Sender`
is still alive, which worker threads are still running (indexed by worker
id), and the history of submitted and executed job ids. -/
structure PoolSt where
  queue : List Nat
  senderAlive : Bool
  running : List Bool
  executed : List Nat
  submitted : List Nat
deriving DecidableEq

/-- One atomic event of the pool system.  `submit` is `ThreadPool::execute`
(a `send`); `dropSender` is the `drop(self.sender.take())` at the start of
`ThreadPool::drop`; `recv i` is worker `i`'s `recv()` returning `Ok(job)`
followed by `job()`; `close i` is worker `i`'s `recv()` returning `Err`
(channel empty and sender dropped) and the worker breaking out of its loop;
`join i` is the destructor's `thread.join()` on worker `i`, which can
complete only once that worker has stopped running. -/
inductive Act where
  | submit (j : Nat)
  | dropSender
  | recv (i : Nat)
  | close (i : Nat)
  | join (i : Nat)
deriving DecidableEq

/-- Small-step semantics of the pool system; `none` means the event cannot
occur in this state.  `recv` delivers the head of the FIFO queue to exactly
one worker; `close` requires the queue empty and the sender dropped, which
is exactly when mpsc `recv()` returns `Err`. -/
def step (s : PoolSt) : Act → Option PoolSt
  | .submit j =>
    if s.senderAlive then
      some { s with queue := s.queue ++ [j], submitted := s.submitted ++ [j] }
    else none
  | .dropSender =>
    if s.senderAlive then some { s with senderAlive := false } else none
  | .recv i =>
    if s.running.getD i false then
      match s.queue with
      | [] => none
      | j :: rest => some { s with queue := rest, executed := s.executed ++ [j] }
    else none
  | .close i =>
    if s.running.getD i false && s.queue.isEmpty && !s.senderAlive then
      some { s with running := s.running.set i false }
    else none
  | .join i =>
    if s.running.getD i false then none else some s

/-- Run a sequence of events from a state. -/
def run (s : PoolSt) : List Act → Option PoolSt
  | [] => some s
  | a :: rest => match step s a with
    | none => none
    | some s' => run s' rest

/-- The initial state after `ThreadPool::new n`: empty channel, live
sender, `n` running workers. -/
def initPool (n : Nat) : PoolSt :=
  { queue := [], senderAlive := true, running := List.replicate n true,
    executed := [], submitted := [] }

/-- Is the event performed by `ThreadPool::drop` (as opposed to by a worker
or by `execute`)? -/
def isDtorAct : Act → Bool
  | .dropSender => true
  | .join _ => true
  | _ => false

/-- The sequence of events `ThreadPool::drop` performs, in program order:
drop the sender, then join each worker in creation order. -/
def dropSeq (n : Nat) : List Act :=
  .dropSender :: (List.range n).map .join

/-- Shape of the suffix `X` such that `pages ++ X` is the relative path of a
directory reached by the walk: the root itself (`X = []`) or a
`/`-separated chain of nonempty component names (so `X` starts with `/` and
has length at least two). -/
def goodDir (X : List Char) : Prop :=
  X = [] ∨ ∃ c cs, X = '/' :: c :: cs

/-- Invariant of the pool system for a pool created with `n` workers: the
worker count never changes; the executed jobs followed by the queued jobs
are exactly the submitted jobs in order; while the sender is alive every
worker is still running; and once every worker has stopped the queue is
empty. -/
def PoolInv (n : Nat) (s : PoolSt) : Prop :=
  s.running.length = n ∧
  s.executed ++ s.queue = s.submitted ∧
  (s.senderAlive = true → ∀ b ∈ s.running, b = true) ∧
  ((∀ b ∈ s.running, b = false) → s.queue = [])

/-! ### Lemmas about the string primitives -/

theorem isPrefixOfB_append (l X : List Char) : isPrefixOfB l (l ++ X) = true := by
  induction l with
  | nil => rfl
  | cons a as ih => simp [isPrefixOfB, ih]

theorem firstOcc_of_prefixB {pat s : List Char} (h : isPrefixOfB pat s = true) :
    firstOcc pat s = some 0 := by
  cases s <;> simp [firstOcc, h]

theorem trimAux_of_neg {pat s : List Char} (h : isPrefixOfB pat s = false)
    (fuel : Nat) : trimAux pat fuel s = s := by
  cases fuel <;> simp [trimAux, h]

theorem trimAux_append {pat X : List Char} (fuel : Nat) (hpat : pat ≠ [])
    (hX : isPrefixOfB pat X = false) (hfuel : 1 ≤ fuel) :
    trimAux pat fuel (pat ++ X) = X := by
  cases fuel with
  | zero => omega
  | succ n =>
    simp only [trimAux, hpat, ne_eq, not_false_eq_true, isPrefixOfB_append, and_self, if_true,
      true_and]
    rw [List.drop_left]
    exact trimAux_of_neg hX n

theorem rfo_append {pat X : List Char} (hpat : pat ≠ [])
    (hX : isPrefixOfB pat X = false) :
    remove_first_occurrence (pat ++ X) pat = if X = [] then ['/'] else X := by
  have hlen : 1 ≤ (pat ++ X).length := by
    cases pat with
    | nil => exact absurd rfl hpat
    | cons a as => simp
  unfold remove_first_occurrence
  rw [firstOcc_of_prefixB (isPrefixOfB_append pat X)]
  simp only [List.drop_zero]
  rw [trimStartMatches, trimAux_append _ hpat hX hlen]

theorem isPrefixOfB_pages_nil : isPrefixOfB "pages".toList [] = false := by rfl

theorem isPrefixOfB_pages_slash (X : List Char) :
    isPrefixOfB "pages".toList ('/' :: X) = false := by rfl

theorem pages_ne_nil : "pages".toList ≠ [] := by decide

theorem rfo_pages_root : remove_first_occurrence "pages".toList "pages".toList = ['/'] := by
  have h := @rfo_append "pages".toList [] pages_ne_nil isPrefixOfB_pages_nil
  simpa using h

theorem rfo_pages_slash (X : List Char) :
    remove_first_occurrence ("pages".toList ++ '/' :: X) "pages".toList = '/' :: X := by
  have h := @rfo_append "pages".toList ('/' :: X) pages_ne_nil (isPrefixOfB_pages_slash X)
  simpa using h

/-! ### Lemmas about path components -/

theorem takeWhile_append_cons (q : Char → Bool) (l r : List Char) (c : Char)
    (hc : q c = false) : (l ++ c :: r).takeWhile q = l.takeWhile q := by
  induction l with
  | nil => simp [List.takeWhile_cons, hc]
  | cons a l ih => by_cases h : q a <;> simp [List.takeWhile_cons, h, ih]

theorem fileName_append (d name : List Char) :
    fileName (d ++ '/' :: name) = fileName name := by
  unfold fileName
  have h1 : (d ++ '/' :: name).reverse = name.reverse ++ '/' :: d.reverse := by
    simp
  rw [h1, takeWhile_append_cons _ _ _ _ (by decide)]

theorem fileStem_ne_nil {f : List Char} (h : f ≠ []) : fileStem f ≠ [] := by
  rw [fileStem]
  cases hm : List.drop (List.takeWhile (fun c => c != '.') f.reverse).length f.reverse with
  | nil => simpa [hm] using h
  | cons hd tl =>
    simp only [hm]
    by_cases hs : tl = []
    · simpa [hs] using h
    · simp [hs]

theorem with_extension_empty_append (d name : List Char) (h : name ≠ []) :
    ∃ w, w ≠ [] ∧ with_extension_empty (d ++ '/' :: name) = d ++ '/' :: w := by
  have hfn : fileName (d ++ '/' :: name) = fileName name := fileName_append d name
  have hlen : (fileName name).length ≤ name.length := by
    unfold fileName
    have := (@List.takeWhile_sublist Char name.reverse (fun c => c != '/')).length_le
    simpa using this
  refine ⟨name.take (name.length - (fileName name).length) ++ fileStem (fileName name),
    ?_, ?_⟩
  · by_cases hfe : fileName name = []
    · have : name.length - (fileName name).length = name.length := by simp [hfe]
      rw [this, List.take_length]
      simp [h]
    · have := fileStem_ne_nil hfe
      simp [this]
  · unfold with_extension_empty
    rw [hfn]
    have e1 : (d ++ '/' :: name).length = d.length + 1 + name.length := by
      simp only [List.length_append, List.length_cons]
      omega
    have e2 : (d ++ ['/']).length = d.length + 1 := by
      simp only [List.length_append, List.length_cons, List.length_nil]
    have hsplit : (d ++ '/' :: name).length - (fileName name).length =
        (d ++ ['/']).length + (name.length - (fileName name).length) := by
      rw [e1, e2]
      omega
    have hp : d ++ '/' :: name = (d ++ ['/']) ++ name := by simp
    rw [hsplit, hp, List.take_append]
    simp

/-! ### The key produced for a single visited file -/

theorem filePair_snd (d name : List Char) : (filePair d name).2 = d ++ '/' :: name := by
  simp only [filePair]
  split <;> rfl

theorem filePair_fst_of_contains {d name : List Char}
    (hc : containsB "index.html".toList (d ++ '/' :: name) = true) :
    (filePair d name).1 = remove_first_occurrence d "pages".toList := by
  simp only [filePair]
  rw [if_pos hc]

theorem filePair_fst_else {d name : List Char} (hn : name ≠ [])
    (hc : containsB "index.html".toList (d ++ '/' :: name) = false) :
    ∃ w, w ≠ [] ∧
      (filePair d name).1 = remove_first_occurrence (d ++ '/' :: w) "pages".toList := by
  have hc' : ¬ containsB "index.html".toList (d ++ '/' :: name) = true := by
    rw [hc]
    simp
  by_cases hh : containsB "html".toList (d ++ '/' :: name) = true
  · obtain ⟨w, hw, hew⟩ := with_extension_empty_append d name hn
    refine ⟨w, hw, ?_⟩
    simp only [filePair]
    rw [if_neg hc', if_pos hh, hew]
  · refine ⟨name, hn, ?_⟩
    simp only [filePair]
    rw [if_neg hc', if_neg hh]

theorem rfo_pages_good {X : List Char} (hX : goodDir X) :
    remove_first_occurrence ("pages".toList ++ X) "pages".toList =
      if X = [] then ['/'] else X := by
  rcases hX with rfl | ⟨c, cs, rfl⟩
  · simpa using rfo_pages_root
  · simpa using rfo_pages_slash (c :: cs)

theorem rfo_pages_ext {X w : List Char} (hX : goodDir X) (hw : w ≠ []) :
    remove_first_occurrence (("pages".toList ++ X) ++ '/' :: w) "pages".toList =
      X ++ '/' :: w := by
  rw [List.append_assoc]
  rcases hX with rfl | ⟨c, cs, rfl⟩
  · simpa using rfo_pages_slash w
  · simpa using rfo_pages_slash (c :: cs ++ '/' :: w)

theorem filePair_key_index_iff {X name : List Char} (hX : goodDir X) (hn : name ≠ []) :
    (filePair ("pages".toList ++ X) name).1 =
        remove_first_occurrence ("pages".toList ++ X) "pages".toList ↔
      containsB "index.html".toList (("pages".toList ++ X) ++ '/' :: name) = true := by
  constructor
  · intro hk
    by_contra hc
    rw [Bool.not_eq_true] at hc
    obtain ⟨w, hw, hkey⟩ := filePair_fst_else hn hc
    rw [hkey, rfo_pages_ext hX hw, rfo_pages_good hX] at hk
    rcases hX with rfl | ⟨c, cs, rfl⟩
    · simp at hk
      exact hw hk
    · simp at hk
  · intro hc
    exact filePair_fst_of_contains hc

theorem filePair_key_root_iff {X name : List Char} (hX : goodDir X) (hn : name ≠ []) :
    (filePair ("pages".toList ++ X) name).1 = ['/'] ↔
      (X = [] ∧
        containsB "index.html".toList (("pages".toList ++ X) ++ '/' :: name) = true) := by
  by_cases hc : containsB "index.html".toList (("pages".toList ++ X) ++ '/' :: name) = true
  · rw [filePair_fst_of_contains hc, rfo_pages_good hX]
    rcases hX with rfl | ⟨c, cs, rfl⟩
    · simpa using hc
    · simp [hc]
  · rw [Bool.not_eq_true] at hc
    obtain ⟨w, hw, hkey⟩ := filePair_fst_else hn hc
    rw [hkey, rfo_pages_ext hX hw]
    constructor
    · intro hk
      rcases hX with rfl | ⟨c, cs, rfl⟩
      · simp at hk
        exact absurd hk hw
      · have := congrArg List.length hk
        simp at this
    · rintro ⟨-, hcc⟩
      rw [hcc] at hc
      simp at hc

/-! ### Inverting the walk -/

theorem read_path_file_ok {d name : List Char} {rest : List FsEntry}
    {m : List (List Char × List Char)}
    (h : read_path d (.file name :: rest) = .ok m) :
    ∃ m', read_path d rest = .ok m' ∧ m = filePair d name :: m' := by
  rw [read_path] at h
  cases hr : read_path d rest with
  | error e =>
    rw [hr] at h
    simp [Bind.bind, Except.bind] at h
  | ok m' =>
    rw [hr] at h
    simp only [Bind.bind, Except.bind, Except.ok.injEq] at h
    exact ⟨m', rfl, h.symm⟩

theorem read_path_dir_ok {d name : List Char} {sub rest : List FsEntry}
    {m : List (List Char × List Char)}
    (h : read_path d (.dir name sub :: rest) = .ok m) :
    ∃ ms mr, read_path (d ++ '/' :: name) sub = .ok ms ∧
      read_path d rest = .ok mr ∧ m = ms ++ mr := by
  rw [read_path] at h
  cases hs : read_path (d ++ '/' :: name) sub with
  | error e =>
    rw [hs] at h
    simp [Bind.bind, Except.bind] at h
  | ok ms =>
    rw [hs] at h
    cases hr : read_path d rest with
    | error e =>
      rw [hr] at h
      simp [Bind.bind, Except.bind] at h
    | ok mr =>
      rw [hr] at h
      simp only [Bind.bind, Except.bind, Except.ok.injEq] at h
      exact ⟨ms, mr, rfl, rfl, h.symm⟩

theorem read_path_badDir {d name : List Char} {rest : List FsEntry}
    {m : List (List Char × List Char)}
    (h : read_path d (.badDir name :: rest) = .ok m) : False := by
  rw [read_path] at h
  exact absurd h (by simp)

theorem read_path_badEntry {d : List Char} {rest : List FsEntry}
    {m : List (List Char × List Char)}
    (h : read_path d (.badEntry :: rest) = .ok m) : False := by
  rw [read_path] at h
  exact absurd h (by simp)

theorem read_path_mem_filePair :
    ∀ (d : List Char) (t : List FsEntry) (m : List (List Char × List Char)),
      read_path d t = .ok m → ∀ kv ∈ m, ∃ d' name, kv = filePair d' name := by
  intro d t
  induction d, t using read_path.induct with
  | case1 d =>
    intro m h kv hkv
    rw [read_path] at h
    cases h
    simp at hkv
  | case2 d name rest ih =>
    intro m h kv hkv
    obtain ⟨m', hr, rfl⟩ := read_path_file_ok h
    rcases List.mem_cons.mp hkv with rfl | hkv'
    · exact ⟨d, name, rfl⟩
    · exact ih m' hr kv hkv'
  | case3 d name sub rest ihs ihr =>
    intro m h kv hkv
    obtain ⟨ms, mr, hs, hr, rfl⟩ := read_path_dir_ok h
    rcases List.mem_append.mp hkv with h1 | h2
    · exact ihs ms hs kv h1
    · exact ihr mr hr kv h2
  | case4 d name tail =>
    intro m h kv hkv
    exact (read_path_badDir h).elim
  | case5 d tail =>
    intro m h kv hkv
    exact (read_path_badEntry h).elim

theorem read_path_error_of_hasErr :
    ∀ (d : List Char) (t : List FsEntry),
      hasErr t = true → read_path d t = .error () := by
  intro d t
  induction d, t using read_path.induct with
  | case1 d =>
    intro h
    rw [hasErr] at h
    cases h
  | case2 d name rest ih =>
    intro h
    rw [hasErr] at h
    rw [read_path, ih h]
    rfl
  | case3 d name sub rest ihs ihr =>
    intro h
    rw [hasErr] at h
    rw [read_path]
    rcases Bool.or_eq_true_iff.mp h with hs | hr
    · rw [ihs hs]
      rfl
    · cases hsub : read_path (d ++ '/' :: name) sub with
      | error e =>
        cases e
        rfl
      | ok ms =>
        rw [ihr hr]
        rfl
  | case4 d name tail =>
    intro h
    rw [read_path]
  | case5 d tail =>
    intro h
    rw [read_path]

theorem read_path_ok_of_not_hasErr :
    ∀ (d : List Char) (t : List FsEntry),
      hasErr t = false →
      ∃ m, read_path d t = .ok m ∧ m.map Prod.snd = filePaths d t := by
  intro d t
  induction d, t using read_path.induct with
  | case1 d =>
    intro h
    exact ⟨[], by rw [read_path], by rw [filePaths]; rfl⟩
  | case2 d name rest ih =>
    intro h
    rw [hasErr] at h
    obtain ⟨m', hm', hsnd⟩ := ih h
    refine ⟨filePair d name :: m', ?_, ?_⟩
    · rw [read_path, hm']
      rfl
    · rw [filePaths, List.map_cons, hsnd, filePair_snd]
  | case3 d name sub rest ihs ihr =>
    intro h
    rw [hasErr] at h
    rcases Bool.or_eq_false_iff.mp h with ⟨hs, hr⟩
    obtain ⟨ms, hms, hssnd⟩ := ihs hs
    obtain ⟨mr, hmr, hrsnd⟩ := ihr hr
    refine ⟨ms ++ mr, ?_, ?_⟩
    · rw [read_path, hms, hmr]
      rfl
    · rw [filePaths, List.map_append, hssnd, hrsnd]
  | case4 d name tail =>
    intro h
    rw [hasErr] at h
    cases h
  | case5 d tail =>
    intro h
    rw [hasErr] at h
    cases h

theorem read_path_root_key_aux :
    ∀ (d : List Char) (t : List FsEntry), ∀ (X : List Char)
      (m : List (List Char × List Char)),
      d = "pages".toList ++ X → goodDir X → wfEntries t = true →
      read_path d t = .ok m →
      ((['/'] ∈ m.map Prod.fst) ↔
        (X = [] ∧ ∃ name, FsEntry.file name ∈ t ∧
          containsB "index.html".toList (d ++ '/' :: name) = true)) := by
  intro d t
  induction d, t using read_path.induct with
  | case1 d =>
    intro X m hd hX hwf h
    rw [read_path] at h
    cases h
    simp
  | case2 d name rest ih =>
    intro X m hd hX hwf h
    obtain ⟨m', hr, rfl⟩ := read_path_file_ok h
    rw [wfEntries] at hwf
    simp only [Bool.and_eq_true, Bool.not_eq_true'] at hwf
    obtain ⟨hn0, hwr⟩ := hwf
    have hn : name ≠ [] := by
      intro hne
      rw [hne] at hn0
      simp at hn0
    subst hd
    have hkey := filePair_key_root_iff hX hn
    have ihm := ih X m' rfl hX hwr hr
    simp only [List.map_cons, List.mem_cons]
    constructor
    · rintro (hk | hk)
      · obtain ⟨hX0, hcon⟩ := hkey.mp hk.symm
        exact ⟨hX0, name, Or.inl rfl, hcon⟩
      · obtain ⟨hX0, name', hmem, hcon⟩ := ihm.mp hk
        exact ⟨hX0, name', Or.inr hmem, hcon⟩
    · rintro ⟨rfl, name', hmem, hcon⟩
      rcases hmem with heq | hmem'
      · cases heq
        exact Or.inl (hkey.mpr ⟨rfl, hcon⟩).symm
      · exact Or.inr (ihm.mpr ⟨rfl, name', hmem', hcon⟩)
  | case3 d name sub rest ihs ihr =>
    intro X m hd hX hwf h
    obtain ⟨ms, mr, hs, hr, rfl⟩ := read_path_dir_ok h
    rw [wfEntries] at hwf
    simp only [Bool.and_eq_true, Bool.not_eq_true'] at hwf
    obtain ⟨⟨hn0, hws⟩, hwr⟩ := hwf
    have hn : name ≠ [] := by
      intro hne
      rw [hne] at hn0
      simp at hn0
    subst hd
    have hX' : goodDir (X ++ '/' :: name) := by
      rcases hX with rfl | ⟨c, cs, rfl⟩
      · cases name with
        | nil => exact absurd rfl hn
        | cons a as => exact Or.inr ⟨a, as, by simp⟩
      · exact Or.inr ⟨c, cs ++ '/' :: name, by simp⟩
    have hd' : ("pages".toList ++ X) ++ '/' :: name =
        "pages".toList ++ (X ++ '/' :: name) := by
      simp
    have ihsub := ihs (X ++ '/' :: name) ms hd' hX' hws hs
    have ihrest := ihr X mr rfl hX hwr hr
    have hnot : ¬ (['/'] ∈ ms.map Prod.fst) := by
      rw [ihsub]
      rintro ⟨habs, -⟩
      exact List.cons_ne_nil _ _ (List.append_eq_nil.mp habs).2
    simp only [List.map_append, List.mem_append]
    constructor
    · rintro (hk | hk)
      · exact absurd hk hnot
      · obtain ⟨hX0, name', hmem, hcon⟩ := ihrest.mp hk
        exact ⟨hX0, name', List.mem_cons_of_mem _ hmem, hcon⟩
    · rintro ⟨rfl, name', hmem, hcon⟩
      rcases List.mem_cons.mp hmem with heq | hmem'
      · cases heq
      · exact Or.inr (ihrest.mpr ⟨rfl, name', hmem', hcon⟩)
  | case4 d name tail =>
    intro X m hd hX hwf h
    exact (read_path_badDir h).elim
  | case5 d tail =>
    intro X m hd hX hwf h
    exact (read_path_badEntry h).elim

/-! ### Lemmas about the pool system -/

theorem run_append (s : PoolSt) (l1 l2 : List Act) :
    run s (l1 ++ l2) = (run s l1).bind (fun t => run t l2) := by
  induction l1 generalizing s with
  | nil => rfl
  | cons a l ih =>
    rw [List.cons_append]
    simp only [run]
    cases hs : step s a with
    | none => rfl
    | some s' => exact ih s'

theorem getD_set_false (l : List Bool) (i j : Nat)
    (h : l.getD i false = false) : (l.set j false).getD i false = false := by
  induction l generalizing i j with
  | nil => simpa using h
  | cons b t ih =>
    cases j with
    | zero =>
      cases i with
      | zero => simp [List.getD]
      | succ i' => simpa [List.getD] using h
    | succ j' =>
      cases i with
      | zero => simpa [List.getD] using h
      | succ i' =>
        simp only [List.set, List.getD_cons_succ]
        exact ih i' j' (by simpa [List.getD] using h)

theorem getD_set_ne (l : List Bool) (v : Bool) (i j : Nat) (hij : j ≠ i) :
    (l.set j v).getD i false = l.getD i false := by
  induction l generalizing i j with
  | nil => simp
  | cons b t ih =>
    cases j with
    | zero =>
      cases i with
      | zero => exact absurd rfl hij
      | succ i' => simp [List.getD]
    | succ j' =>
      cases i with
      | zero => simp [List.getD]
      | succ i' =>
        simp only [List.set, List.getD_cons_succ]
        exact ih i' j' (fun hh => hij (by rw [hh]))

theorem step_submit_inv {s s' : PoolSt} {j : Nat}
    (h : step s (.submit j) = some s') :
    s.senderAlive = true ∧
      s' = { s with queue := s.queue ++ [j], submitted := s.submitted ++ [j] } := by
  simp only [step] at h
  split at h
  · next hsa =>
    cases h
    exact ⟨hsa, rfl⟩
  · cases h

theorem step_dropSender_inv {s s' : PoolSt}
    (h : step s .dropSender = some s') :
    s.senderAlive = true ∧ s' = { s with senderAlive := false } := by
  simp only [step] at h
  split at h
  · next hsa =>
    cases h
    exact ⟨hsa, rfl⟩
  · cases h

theorem step_recv_inv {s s' : PoolSt} {i : Nat}
    (h : step s (.recv i) = some s') :
    s.running.getD i false = true ∧ ∃ j rest, s.queue = j :: rest ∧
      s' = { s with queue := rest, executed := s.executed ++ [j] } := by
  simp only [step] at h
  split at h
  · next hr =>
    split at h
    · cases h
    · next j rest hq =>
      cases h
      exact ⟨hr, j, rest, hq, rfl⟩
  · cases h

theorem step_close_inv {s s' : PoolSt} {i : Nat}
    (h : step s (.close i) = some s') :
    s.running.getD i false = true ∧ s.queue = [] ∧ s.senderAlive = false ∧
      s' = { s with running := s.running.set i false } := by
  simp only [step] at h
  split at h
  · next hg =>
    cases h
    simp only [Bool.and_eq_true, Bool.not_eq_true'] at hg
    exact ⟨hg.1.1, List.isEmpty_iff.mp hg.1.2, hg.2, rfl⟩
  · cases h

theorem step_join_inv {s s' : PoolSt} {i : Nat}
    (h : step s (.join i) = some s') :
    s.running.getD i false = false ∧ s' = s := by
  simp only [step] at h
  split at h
  · cases h
  · next hr =>
    cases h
    exact ⟨Bool.not_eq_true _ |>.mp hr, rfl⟩

theorem step_preserves_inv {n : Nat} {s s' : PoolSt} {a : Act} (hn : 1 ≤ n)
    (hinv : PoolInv n s) (h : step s a = some s') : PoolInv n s' := by
  obtain ⟨h1, h2, h3, h4⟩ := hinv
  cases a with
  | submit j =>
    obtain ⟨hsa, rfl⟩ := step_submit_inv h
    refine ⟨h1, ?_, fun _ => h3 hsa, fun hall => ?_⟩
    · show s.executed ++ (s.queue ++ [j]) = s.submitted ++ [j]
      rw [← List.append_assoc, h2]
    · exfalso
      cases hrn : s.running with
      | nil =>
        rw [hrn] at h1
        simp at h1
        omega
      | cons b l =>
        have hbt := h3 hsa b (by rw [hrn]; exact List.mem_cons_self _ _)
        have hbf := hall b (by show b ∈ s.running; rw [hrn]; exact List.mem_cons_self _ _)
        rw [hbt] at hbf
        cases hbf
  | dropSender =>
    obtain ⟨hsa, rfl⟩ := step_dropSender_inv h
    exact ⟨h1, h2, fun hf => absurd hf Bool.false_ne_true, h4⟩
  | recv i =>
    obtain ⟨hri, j, rest, hq, rfl⟩ := step_recv_inv h
    refine ⟨h1, ?_, fun hsa => h3 hsa, fun hall => ?_⟩
    · show (s.executed ++ [j]) ++ rest = s.submitted
      rw [List.append_assoc]
      rw [hq] at h2
      exact h2
    · exfalso
      have hq0 := h4 hall
      rw [hq] at hq0
      cases hq0
  | close i =>
    obtain ⟨hri, hq, hsa, rfl⟩ := step_close_inv h
    refine ⟨?_, h2, fun hf => ?_, fun _ => hq⟩
    · show (s.running.set i false).length = n
      rw [List.length_set]
      exact h1
    · rw [hsa] at hf
      exact absurd hf Bool.false_ne_true
  | join i =>
    obtain ⟨-, rfl⟩ := step_join_inv h
    exact ⟨h1, h2, h3, h4⟩

theorem run_preserves_inv {n : Nat} (hn : 1 ≤ n) :
    ∀ (acts : List Act) (s s' : PoolSt), PoolInv n s → run s acts = some s' →
      PoolInv n s' := by
  intro acts
  induction acts with
  | nil =>
    intro s s' hinv h
    rw [run] at h
    cases h
    exact hinv
  | cons a rest ih =>
    intro s s' hinv h
    rw [run] at h
    cases hs : step s a with
    | none =>
      rw [hs] at h
      cases h
    | some t =>
      rw [hs] at h
      exact ih t s' (step_preserves_inv hn hinv hs) h

theorem initPool_inv (n : Nat) : PoolInv n (initPool n) := by
  refine ⟨by simp [initPool], rfl, ?_, fun _ => rfl⟩
  intro _ b hb
  exact List.eq_of_mem_replicate hb

theorem step_running_false {s s' : PoolSt} {a : Act} {i : Nat}
    (h : step s a = some s') (hf : s.running.getD i false = false) :
    s'.running.getD i false = false := by
  cases a with
  | submit j =>
    obtain ⟨-, rfl⟩ := step_submit_inv h
    exact hf
  | dropSender =>
    obtain ⟨-, rfl⟩ := step_dropSender_inv h
    exact hf
  | recv k =>
    obtain ⟨-, j, rest, -, rfl⟩ := step_recv_inv h
    exact hf
  | close k =>
    obtain ⟨-, -, -, rfl⟩ := step_close_inv h
    exact getD_set_false _ _ _ hf
  | join k =>
    obtain ⟨-, rfl⟩ := step_join_inv h
    exact hf

theorem run_running_false :
    ∀ (acts : List Act) (s s' : PoolSt) (i : Nat),
      run s acts = some s' → s.running.getD i false = false →
      s'.running.getD i false = false := by
  intro acts
  induction acts with
  | nil =>
    intro s s' i h hf
    rw [run] at h
    cases h
    exact hf
  | cons a rest ih =>
    intro s s' i h hf
    rw [run] at h
    cases hs : step s a with
    | none =>
      rw [hs] at h
      cases h
    | some t =>
      rw [hs] at h
      exact ih t s' i h (step_running_false hs hf)

theorem step_running_length {s s' : PoolSt} {a : Act} (h : step s a = some s') :
    s'.running.length = s.running.length := by
  cases a with
  | submit j =>
    obtain ⟨-, rfl⟩ := step_submit_inv h
    rfl
  | dropSender =>
    obtain ⟨-, rfl⟩ := step_dropSender_inv h
    rfl
  | recv k =>
    obtain ⟨-, j, rest, -, rfl⟩ := step_recv_inv h
    rfl
  | close k =>
    obtain ⟨-, -, -, rfl⟩ := step_close_inv h
    exact List.length_set _ _ _
  | join k =>
    obtain ⟨-, rfl⟩ := step_join_inv h
    rfl

theorem run_running_length :
    ∀ (acts : List Act) (s s' : PoolSt),
      run s acts = some s' → s'.running.length = s.running.length := by
  intro acts
  induction acts with
  | nil =>
    intro s s' h
    rw [run] at h
    cases h
    rfl
  | cons a rest ih =>
    intro s s' h
    rw [run] at h
    cases hs : step s a with
    | none =>
      rw [hs] at h
      cases h
    | some t =>
      rw [hs] at h
      rw [ih t s' h, step_running_length hs]

theorem step_stop_characterization {s s' : PoolSt} {a : Act} {i : Nat}
    (h : step s a = some s')
    (hbefore : s.running.getD i false = true)
    (hafter : s'.running.getD i false = false) :
    a = .close i ∧ s.queue = [] ∧ s.senderAlive = false := by
  cases a with
  | submit j =>
    obtain ⟨-, rfl⟩ := step_submit_inv h
    rw [hbefore] at hafter
    exact Bool.noConfusion hafter
  | dropSender =>
    obtain ⟨-, rfl⟩ := step_dropSender_inv h
    rw [hbefore] at hafter
    exact Bool.noConfusion hafter
  | recv k =>
    obtain ⟨-, j, rest, -, rfl⟩ := step_recv_inv h
    rw [hbefore] at hafter
    exact Bool.noConfusion hafter
  | close k =>
    obtain ⟨hrk, hq, hsa, rfl⟩ := step_close_inv h
    have hki : k = i := by
      by_contra hki
      rw [getD_set_ne _ _ _ _ hki, hbefore] at hafter
      exact Bool.noConfusion hafter
    subst hki
    exact ⟨rfl, hq, hsa⟩
  | join k =>
    obtain ⟨-, rfl⟩ := step_join_inv h
    rw [hbefore] at hafter
    exact Bool.noConfusion hafter

theorem step_close_enabled (s : PoolSt) (i : Nat) :
    (step s (.close i)).isSome = true ↔
      (s.running.getD i false = true ∧ s.queue = [] ∧ s.senderAlive = false) := by
  constructor
  · intro h
    obtain ⟨s', hs⟩ := Option.isSome_iff_exists.mp h
    obtain ⟨h1, h2, h3, -⟩ := step_close_inv hs
    exact ⟨h1, h2, h3⟩
  · rintro ⟨h1, h2, h3⟩
    rw [List.getD_eq_getElem?_getD] at h1
    simp [step, h1, h2, h3, List.getD_eq_getElem?_getD]

theorem run_dtor_all_stopped :
    ∀ (s0 : PoolSt) (acts : List Act) (s : PoolSt),
      run s0 acts = some s →
      acts.filter isDtorAct = dropSeq s0.running.length →
      ∀ b ∈ s.running, b = false := by
  intro s0 acts s hrun hfilter b hb
  obtain ⟨k, hk, hbk⟩ := List.mem_iff_getElem.mp hb
  have hlen : s.running.length = s0.running.length := run_running_length acts s0 s hrun
  have hkn : k < s0.running.length := hlen ▸ hk
  have hjoin : Act.join k ∈ acts := by
    have h1 : Act.join k ∈ dropSeq s0.running.length := by
      rw [dropSeq]
      exact List.mem_cons_of_mem _ (List.mem_map_of_mem _ (List.mem_range.mpr hkn))
    rw [← hfilter] at h1
    exact List.mem_of_mem_filter h1
  obtain ⟨l1, l2, rfl⟩ := List.append_of_mem hjoin
  rw [run_append] at hrun
  cases hr1 : run s0 l1 with
  | none =>
    rw [hr1] at hrun
    cases hrun
  | some t =>
    rw [hr1] at hrun
    have hrun2 : run t (Act.join k :: l2) = some s := hrun
    rw [run] at hrun2
    cases hs : step t (.join k) with
    | none =>
      rw [hs] at hrun2
      cases hrun2
    | some t' =>
      rw [hs] at hrun2
      obtain ⟨htk, rfl⟩ := step_join_inv hs
      have hfinal := run_running_false l2 _ s k hrun2 htk
      have hgb : s.running.getD k false = b := by
        rw [List.getD_eq_getElem?_getD, List.getElem?_eq_getElem hk]
        exact hbk
      rw [hfinal] at hgb
      exact hgb.symm

theorem lookupLast_isSome_iff (m : List (List Char × List Char)) (k : List Char) :
    (lookupLast m k).isSome = true ↔ k ∈ m.map Prod.fst := by
  induction m with
  | nil => simp [lookupLast]
  | cons p rest ih =>
    obtain ⟨k', v⟩ := p
    rw [lookupLast]
    cases hr : lookupLast rest k with
    | some v' =>
      have hm : k ∈ List.map Prod.fst rest := by
        rw [← ih, hr]
        rfl
      simp [hr, hm]
    | none =>
      have hm : ¬ k ∈ List.map Prod.fst rest := by
        rw [← ih, hr]
        simp
      by_cases hk : k = k' <;> simp [hr, hk, hm]

/-! ### Claim theorems -/

/-- Claim C1, counterexample: the walk tests `p.contains("index.html")` on the
whole relative path, not base-name equality.  The file `pages/old-index.html`,
whose base name is not `index.html`, is nevertheless inserted under its
directory's key `/`; hence the key `/` is present although `pages/index.html`
does not exist. -/
theorem c1_counterexample :
    read_path "pages".toList [FsEntry.file "old-index.html".toList] =
      .ok [("/".toList, "pages/old-index.html".toList)] ∧
    "old-index.html".toList ≠ "index.html".toList := by
  constructor
  · simp only [read_path, filePair]
    decide
  · decide

/-- Claim C1, amended: a visited regular file is inserted under its containing
directory's key if and only if its working-directory-relative path contains
the substring `index.html`; and the URL key `/` is present in the finished
index if and only if the `pages` directory itself directly contains a file
whose name contains `index.html` (for listings whose entry names are
nonempty). -/
theorem c1_index_rule :
    (∀ (X name : List Char), goodDir X → name ≠ [] →
      ((filePair ("pages".toList ++ X) name).1 =
          remove_first_occurrence ("pages".toList ++ X) "pages".toList ↔
        containsB "index.html".toList (("pages".toList ++ X) ++ '/' :: name) = true))
    ∧ (∀ (t : List FsEntry) (m : List (List Char × List Char)),
        wfEntries t = true → read_path "pages".toList t = .ok m →
        (['/'] ∈ m.map Prod.fst ↔
          ∃ name, FsEntry.file name ∈ t ∧
            containsB "index.html".toList ("pages".toList ++ '/' :: name) = true)) := by
  constructor
  · intro X name hX hn
    exact filePair_key_index_iff hX hn
  · intro t m hwf h
    have haux := read_path_root_key_aux "pages".toList t [] m (by simp) (Or.inl rfl) hwf h
    simpa using haux

/-- Witness for the amended claim C1 at concrete inputs. -/
theorem c1_index_rule_witness :
    (filePair ("pages".toList ++ []) "index.html".toList).1 =
        remove_first_occurrence ("pages".toList ++ []) "pages".toList ∧
    ['/'] ∈ ([("/".toList, "pages/index.html".toList)].map Prod.fst) := by
  constructor
  · exact (c1_index_rule.1 [] "index.html".toList (Or.inl rfl) (by decide)).mpr (by decide)
  · refine (c1_index_rule.2 [FsEntry.file "index.html".toList]
      [("/".toList, "pages/index.html".toList)] (by simp [wfEntries]) ?_).mpr
      ⟨"index.html".toList, List.mem_singleton.mpr rfl, by decide⟩
    simp only [read_path, filePair]
    decide

/-- Claim C2, counterexample: the walk tests `p.contains("html")` and then
strips the final extension whatever it is.  `pages/data.html.bak` does not
match `*.html`, yet it is indexed under `/data.html` (its `.bak` suffix
stripped) instead of the claimed `/data.html.bak`. -/
theorem c2_counterexample :
    read_path "pages".toList [FsEntry.file "data.html.bak".toList] =
      .ok [("/data.html".toList, "pages/data.html.bak".toList)] ∧
    "/data.html".toList ≠ "/data.html.bak".toList := by
  constructor
  · simp only [read_path, filePair]
    decide
  · decide

/-- Claim C2, amended: every visited file whose relative path does not contain
`index.html` is inserted under the key obtained from its path by removing the
final extension when the path contains the substring `html` (keeping the path
unchanged otherwise) and then stripping the leading `pages`. -/
theorem c2_key_rule :
    ∀ (d : List Char) (t : List FsEntry) (m : List (List Char × List Char))
      (k v : List Char),
      read_path d t = .ok m → (k, v) ∈ m →
      containsB "index.html".toList v = false →
      k = remove_first_occurrence
            (if containsB "html".toList v then with_extension_empty v else v)
            "pages".toList := by
  intro d t m k v h hmem hcon
  obtain ⟨d', name, hkv⟩ := read_path_mem_filePair d t m h (k, v) hmem
  have hv : v = d' ++ '/' :: name := by
    have h2 := congrArg Prod.snd hkv
    rw [filePair_snd] at h2
    exact h2
  have hk : k = (filePair d' name).1 := congrArg Prod.fst hkv
  subst hv
  rw [hk]
  simp only [filePair]
  rw [if_neg (show ¬ containsB "index.html".toList (d' ++ '/' :: name) = true by
    rw [hcon]
    simp)]

/-- Witness for the amended claim C2 at a concrete input. -/
theorem c2_key_rule_witness :
    ("/assets/logo.svg".toList : List Char) =
      remove_first_occurrence
        (if containsB "html".toList "pages/assets/logo.svg".toList then
          with_extension_empty "pages/assets/logo.svg".toList
        else "pages/assets/logo.svg".toList)
        "pages".toList := by
  refine c2_key_rule "pages".toList
    [FsEntry.dir "assets".toList [FsEntry.file "logo.svg".toList]]
    [("/assets/logo.svg".toList, "pages/assets/logo.svg".toList)]
    "/assets/logo.svg".toList "pages/assets/logo.svg".toList
    ?_ (by decide) (by decide)
  simp only [read_path, filePair]
  decide

/-- Claim C3: key formation on a working-directory-relative path `pages/X`
yields `/` for the root directory `pages` itself, and otherwise exactly the
remainder after removing the single leading occurrence of `pages` (the
separator kept), so every produced key begins with `/`; in particular the
walk maps `pages/a/index.html` to the key `/a`. -/
theorem c3_key_formation :
    remove_first_occurrence "pages".toList "pages".toList = "/".toList
    ∧ (∀ X : List Char,
        remove_first_occurrence ("pages".toList ++ '/' :: X) "pages".toList = '/' :: X)
    ∧ (∀ X : List Char,
        (remove_first_occurrence ("pages".toList ++ '/' :: X) "pages".toList).head? =
          some '/')
    ∧ read_path "pages".toList
        [FsEntry.dir "a".toList [FsEntry.file "index.html".toList]] =
        .ok [("/a".toList, "pages/a/index.html".toList)] := by
  refine ⟨rfo_pages_root, rfo_pages_slash, ?_, ?_⟩
  · intro X
    rw [rfo_pages_slash]
    rfl
  · simp only [read_path, filePair]
    decide

/-- Claim C4 (the code contradicts it): the handler uses bare `unwrap` and
the worker loop has no panic protection, so a connection with no readable
request line, a request line with fewer than two tokens, or a file-read
failure after a route hit all panic inside `handle_connection`; the panic
unwinds the worker thread.  This theorem evaluates the handler at those
failing inputs. -/
theorem c4_handler_panics :
    handle_connection [] (fun _ => none) (some []) = .error ()
    ∧ handle_connection [("/x".toList, "pages/x.html".toList)] (fun _ => none)
        (some "GET /x HTTP/1.1".toList) = .error ()
    ∧ handle_connection [] (fun _ => none) none = .error () := by
  refine ⟨?_, ?_, ?_⟩ <;> decide

/-- Claim C5: when the request path is a key of the route index and the mapped
file is read successfully, the handler writes exactly the status line, a
single `Content-Length` header whose value is the body length, a blank line,
and the body. -/
theorem c5_hit_response :
    ∀ (routes : List (List Char × List Char))
      (fread : List Char → Option (List Char))
      (rl method path : List Char) (rest : List (List Char))
      (file body : List Char),
      splitWS rl = method :: path :: rest →
      lookupLast routes path = some file →
      fread file = some body →
      handle_connection routes fread (some rl) =
        .ok ("HTTP/1.1 200 OK\r\nContent-Length: ".toList ++
          (Nat.repr body.length).toList ++ "\r\n\r\n".toList ++ body) := by
  intro routes fread rl method path rest file body hsplit hlook hread
  simp only [handle_connection, hsplit, hlook, hread]
  simp only [handle_route, Except.ok.injEq]
  simp

/-- Witness for claim C5: the spec's own example, a two-byte file `hi`. -/
theorem c5_hit_response_witness :
    handle_connection [("/".toList, "pages/index.html".toList)]
      (fun p => if p = "pages/index.html".toList then some "hi".toList else none)
      (some "GET / HTTP/1.1".toList) =
      .ok ("HTTP/1.1 200 OK\r\nContent-Length: 2\r\n\r\nhi".toList) := by
  have h := c5_hit_response [("/".toList, "pages/index.html".toList)]
    (fun p => if p = "pages/index.html".toList then some "hi".toList else none)
    "GET / HTTP/1.1".toList "GET".toList "/".toList ["HTTP/1.1".toList]
    "pages/index.html".toList "hi".toList (by decide) (by decide) (by decide)
  rw [h]
  decide

/-- Claim C6: when the request path is not a key of the route index the
handler writes exactly `HTTP/1.1 404 NOT FOUND\r\n\r\n`, and the lookup is an
exact string match: it succeeds precisely when the raw request path equals
one of the stored keys. -/
theorem c6_miss_exact :
    (∀ (routes : List (List Char × List Char))
      (fread : List Char → Option (List Char))
      (rl method path : List Char) (rest : List (List Char)),
      splitWS rl = method :: path :: rest →
      lookupLast routes path = none →
      handle_connection routes fread (some rl) =
        .ok ("HTTP/1.1 404 NOT FOUND\r\n\r\n".toList))
    ∧ (∀ (routes : List (List Char × List Char)) (path : List Char),
        (lookupLast routes path).isSome = true ↔ path ∈ routes.map Prod.fst) := by
  constructor
  · intro routes fread rl method path rest hsplit hlook
    simp only [handle_connection, hsplit, hlook]
  · exact lookupLast_isSome_iff

/-- Witness for claim C6: a trailing slash misses an existing route. -/
theorem c6_miss_exact_witness :
    handle_connection [("/about".toList, "pages/about.html".toList)] (fun _ => none)
      (some "GET /about/ HTTP/1.1".toList) =
      .ok ("HTTP/1.1 404 NOT FOUND\r\n\r\n".toList) ∧
    ((lookupLast [("/about".toList, "pages/about.html".toList)]
        "/about/".toList).isSome = true ↔
      "/about/".toList ∈
        ([("/about".toList, "pages/about.html".toList)].map Prod.fst)) := by
  constructor
  · exact c6_miss_exact.1 _ _ _ "GET".toList "/about/".toList ["HTTP/1.1".toList]
      (by decide) (by decide)
  · exact c6_miss_exact.2 _ _

/-- Claim C7: a failing `read_dir` or directory entry anywhere in the walk
makes route-index construction panic (and it panics only then), and whenever
construction returns, the finished index has exactly one entry per reachable
regular file, in walk order — no file is skipped. -/
theorem c7_fs_errors_fatal :
    ∀ (d : List Char) (t : List FsEntry),
      (read_path d t = .error () ↔ hasErr t = true)
      ∧ (∀ m, read_path d t = .ok m → m.map Prod.snd = filePaths d t) := by
  intro d t
  constructor
  · constructor
    · intro herr
      by_contra hne
      rw [Bool.not_eq_true] at hne
      obtain ⟨m, hm, -⟩ := read_path_ok_of_not_hasErr d t hne
      rw [hm] at herr
      cases herr
    · exact read_path_error_of_hasErr d t
  · intro m hm
    have hne : hasErr t = false := by
      by_contra hha
      rw [Bool.not_eq_false] at hha
      rw [read_path_error_of_hasErr d t hha] at hm
      cases hm
    obtain ⟨m', hm', hsnd⟩ := read_path_ok_of_not_hasErr d t hne
    rw [hm] at hm'
    cases hm'
    exact hsnd

/-- Witness for claim C7: an unreadable directory aborts construction, and a
successful walk lists exactly the reachable file. -/
theorem c7_fs_errors_fatal_witness :
    read_path "pages".toList [FsEntry.badDir "secret".toList] = .error () ∧
    [("/a".toList, "pages/a".toList)].map Prod.snd =
      filePaths "pages".toList [FsEntry.file "a".toList] := by
  constructor
  · exact (c7_fs_errors_fatal "pages".toList [FsEntry.badDir "secret".toList]).1.mpr
      (by simp [hasErr])
  · refine (c7_fs_errors_fatal "pages".toList [FsEntry.file "a".toList]).2 _ ?_
    simp only [read_path, filePair]
    decide

/-- Claim C8: `ThreadPool::new(0)` fails the `assert!(size > 0)` and does not
return a pool, while any size of at least one yields exactly that many
workers. -/
theorem c8_pool_size :
    threadPoolNew 0 = .error ()
    ∧ (∀ n : Nat, 1 ≤ n → ∃ ws, threadPoolNew n = .ok ws ∧ ws.length = n) := by
  constructor
  · rfl
  · intro n hn
    refine ⟨List.range n, ?_, List.length_range n⟩
    simp only [threadPoolNew]
    rw [if_pos (by omega : n > 0)]

/-- Witness for claim C8 at the pool size the server uses. -/
theorem c8_pool_size_witness :
    ∃ ws, threadPoolNew 4 = .ok ws ∧ ws.length = 4 :=
  c8_pool_size.2 4 (by omega)

/-- Claim C9: the destructor drops the sender first (position 0) and then
joins the workers in creation order (worker `i` at position `i + 1`); a
running worker stops exactly via a `close` event, which is enabled precisely
when the queue is empty and the sender has been dropped (a receive returning
the channel-closed error); and after any execution whose destructor events
are exactly the teardown sequence, no worker is still running. -/
theorem c9_teardown :
    (∀ n : Nat, (dropSeq n)[0]? = some Act.dropSender)
    ∧ (∀ n i : Nat, i < n → (dropSeq n)[i + 1]? = some (Act.join i))
    ∧ (∀ (s s' : PoolSt) (a : Act) (i : Nat),
        step s a = some s' → s.running.getD i false = true →
        s'.running.getD i false = false →
        a = Act.close i ∧ s.queue = [] ∧ s.senderAlive = false)
    ∧ (∀ (s : PoolSt) (i : Nat),
        (step s (Act.close i)).isSome = true ↔
          (s.running.getD i false = true ∧ s.queue = [] ∧ s.senderAlive = false))
    ∧ (∀ (s0 : PoolSt) (acts : List Act) (s : PoolSt),
        run s0 acts = some s →
        acts.filter isDtorAct = dropSeq s0.running.length →
        ∀ b ∈ s.running, b = false) := by
  refine ⟨?_, ?_, ?_, ?_, ?_⟩
  · intro n
    simp [dropSeq]
  · intro n i hi
    simp [dropSeq, List.getElem?_map, List.getElem?_range, hi]
  · intro s s' a i h hb ha
    exact step_stop_characterization h hb ha
  · intro s i
    exact step_close_enabled s i
  · exact run_dtor_all_stopped

/-- Witness for claim C9: a one-worker pool torn down after an empty run. -/
theorem c9_teardown_witness :
    run (initPool 1) [Act.dropSender, Act.close 0, Act.join 0] =
      some { queue := [], senderAlive := false, running := [false],
             executed := [], submitted := [] } ∧
    (dropSeq 1)[0]? = some Act.dropSender ∧
    (dropSeq 1)[1]? = some (Act.join 0) ∧
    (∀ b ∈ ([false] : List Bool), b = false) := by
  refine ⟨by decide, c9_teardown.1 1, c9_teardown.2.1 1 0 (by omega), ?_⟩
  intro b hb
  exact c9_teardown.2.2.2.2 (initPool 1) [Act.dropSender, Act.close 0, Act.join 0]
    { queue := [], senderAlive := false, running := [false],
      executed := [], submitted := [] }
    (by decide) (by decide) b hb

/-- Claim C10: for every pool size of at least one and every finite execution
of the pool system, once every worker has stopped (as teardown's joins
require), the sequence of executed jobs equals the sequence of submitted
jobs — every submitted job was delivered to exactly one worker and executed
exactly once, none lost or duplicated. -/
theorem c10_exactly_once :
    ∀ (n : Nat) (acts : List Act) (s : PoolSt),
      1 ≤ n → run (initPool n) acts = some s →
      (∀ b ∈ s.running, b = false) →
      s.executed = s.submitted := by
  intro n acts s hn hrun hstopped
  have hinv := run_preserves_inv hn acts (initPool n) s (initPool_inv n) hrun
  obtain ⟨h1, h2, h3, h4⟩ := hinv
  have hq := h4 hstopped
  rw [hq] at h2
  simpa using h2

/-- Witness for claim C10: one job submitted, received, and executed before a
one-worker pool shuts down. -/
theorem c10_exactly_once_witness :
    run (initPool 1) [Act.submit 7, Act.dropSender, Act.recv 0, Act.close 0] =
      some { queue := [], senderAlive := false, running := [false],
             executed := [7], submitted := [7] } ∧
    ({ queue := [], senderAlive := false, running := [false],
       executed := [7], submitted := [7] } : PoolSt).executed =
      ({ queue := [], senderAlive := false, running := [false],
         executed := [7], submitted := [7] } : PoolSt).submitted := by
  refine ⟨by decide, ?_⟩
  exact c10_exactly_once 1 [Act.submit 7, Act.dropSender, Act.recv 0, Act.close 0] _
    (by omega) (by decide) (by intro b hb; simpa using hb)

end WebServer
